import Mathlib

/-!
Shallow embedding of `src/sha256.cpp` (a SHA-256 implementation).

Machine `unsigned int` (32-bit) values are modelled as `Nat` with explicit
`% 2 ^ 32` wherever the C++ arithmetic wraps; `unsigned char` values are `Nat`
(< 256 for well-formed byte sequences).  Byte sequences (`std::vector<unsigned
char>`) are `List Nat`, word vectors (`std::vector<unsigned int>`) are
`List Nat`, and the 2-d vectors of blocks are `List (List Nat)`.
-/

namespace Sha256

/-- The 64 round constants `K` from `src/sha256.cpp` lines 16-23. -/
def K : List Nat :=
  [0x428a2f98, 0x71374491, 0xb5c0fbcf, 0xe9b5dba5, 0x3956c25b, 0x59f111f1, 0x923f82a4, 0xab1c5ed5] ++
  [0xd807aa98, 0x12835b01, 0x243185be, 0x550c7dc3, 0x72be5d74, 0x80deb1fe, 0x9bdc06a7, 0xc19bf174] ++
  [0xe49b69c1, 0xefbe4786, 0x0fc19dc6, 0x240ca1cc, 0x2de92c6f, 0x4a7484aa, 0x5cb0a9dc, 0x76f988da] ++
  [0x983e5152, 0xa831c66d, 0xb00327c8, 0xbf597fc7, 0xc6e00bf3, 0xd5a79147, 0x06ca6351, 0x14292967] ++
  [0x27b70a85, 0x2e1b2138, 0x4d2c6dfc, 0x53380d13, 0x650a7354, 0x766a0abb, 0x81c2c92e, 0x92722c85] ++
  [0xa2bfe8a1, 0xa81a664b, 0xc24b8b70, 0xc76c51a3, 0xd192e819, 0xd6990624, 0xf40e3585, 0x106aa070] ++
  [0x19a4c116, 0x1e376c08, 0x2748774c, 0x34b0bcb5, 0x391c0cb3, 0x4ed8aa4a, 0x5b9cca4f, 0x682e6ff3] ++
  [0x748f82ee, 0x78a5636f, 0x84c87814, 0x8cc70208, 0x90befffa, 0xa4506ceb, 0xbef9a3f7, 0xc67178f2]

/-- The initial hash value `H0` set up at the start of `getHash`
(`src/sha256.cpp` lines 172-179). -/
def H0 : List Nat :=
  [0x6a09e667, 0xbb67ae85, 0x3c6ef372, 0xa54ff53a,
   0x510e527f, 0x9b05688c, 0x1f83d9ab, 0x5be0cd19]

/-- `SHR(n, x) = x >> n` (`src/sha256.cpp` lines 110-113). -/
def SHR (n x : Nat) : Nat := x >>> n

/-- `ROTR(n, x) = (x >> n) | (x << (32 - n))` on `unsigned int`
(`src/sha256.cpp` lines 116-119); the C++ left shift wraps modulo 2^32. -/
def ROTR (n x : Nat) : Nat := (x >>> n) ||| ((x <<< (32 - n)) % 2 ^ 32)

/-- `Ch(x, y, z) = (x & y) ^ (~x & z)` (`src/sha256.cpp` lines 122-135); the
C++ complement `~x` of a 32-bit word is `x ^ 0xffffffff`. -/
def Ch (x y z : Nat) : Nat := (x &&& y) ^^^ ((x ^^^ 0xffffffff) &&& z)

/-- `Maj(x, y, z) = (x & y) ^ (x & z) ^ (y & z)` (`src/sha256.cpp` lines 138-141). -/
def Maj (x y z : Nat) : Nat := (x &&& y) ^^^ (x &&& z) ^^^ (y &&& z)

/-- `capitalSigma_0(x) = ROTR(2,x) ^ ROTR(13,x) ^ ROTR(22,x)` (`src/sha256.cpp` lines 145-148). -/
def capitalSigma_0 (x : Nat) : Nat := ROTR 2 x ^^^ ROTR 13 x ^^^ ROTR 22 x

/-- `capitalSigma_1(x) = ROTR(6,x) ^ ROTR(11,x) ^ ROTR(25,x)` (`src/sha256.cpp` lines 151-154). -/
def capitalSigma_1 (x : Nat) : Nat := ROTR 6 x ^^^ ROTR 11 x ^^^ ROTR 25 x

/-- `lowercaseSigma0(x) = ROTR(7,x) ^ ROTR(18,x) ^ SHR(3,x)` (`src/sha256.cpp` lines 157-160). -/
def lowercaseSigma0 (x : Nat) : Nat := ROTR 7 x ^^^ ROTR 18 x ^^^ SHR 3 x

/-- `lowercaseSigma1(x) = ROTR(17,x) ^ ROTR(19,x) ^ SHR(10,x)` (`src/sha256.cpp` lines 163-166). -/
def lowercaseSigma1 (x : Nat) : Nat := ROTR 17 x ^^^ ROTR 19 x ^^^ SHR 10 x

/-- The search loop of `getPadding` (`src/sha256.cpp` lines 53-59): starting
from `k`, return the first candidate with `(L + 1 + k) % 512 == 448`; the fuel
bounds the loop (512 steps always suffice, which is proved below). -/
def findPad (L : Nat) : Nat → Nat → Nat
  | 0, k => k
  | fuel + 1, k => if (L + 1 + k) % 512 = 448 then k else findPad L fuel (k + 1)

/-- `getPadding(length)` (`src/sha256.cpp` lines 53-59): the number of padding
bits `k`, found by the upward search from `k = 0`. -/
def getPadding (L : Nat) : Nat := findPad L 512 0

/-- The final loop of `paddingMessage` (`src/sha256.cpp` lines 74-76): push
`l >> (64 - i * 8)` truncated to `unsigned char` for `i = 1, ..., 8`. -/
def lengthBytes (l : Nat) : List Nat :=
  (List.range 8).map (fun i => (l >>> (64 - (i + 1) * 8)) % 256)

/-- `paddingMessage` (`src/sha256.cpp` lines 62-79): append `0x80`, then
`(k - 7) / 8` zero bytes, then the 8 length bytes. -/
def paddingMessage (M : List Nat) : List Nat :=
  let k := getPadding (M.length * 8)
  let l := M.length * 8
  (M ++ [0x80]) ++ List.replicate ((k - 7) / 8) 0 ++ lengthBytes l

/-- The inner word-assembly loop of `parsingMessage` (`src/sha256.cpp`
lines 90-94): `word <<= 8; word |= bytes[i]` over 4 consecutive bytes,
on a wrapping `unsigned int`. -/
def bytesToWord (bs : List Nat) : Nat :=
  bs.foldl (fun w byte => ((w <<< 8) % 2 ^ 32) ||| byte) 0

/-- `parsingMessage` (`src/sha256.cpp` lines 82-103): split the byte sequence
into `size / 64` blocks of 16 big-endian 32-bit words. -/
def parsingMessage (bytes : List Nat) : List (List Nat) :=
  (List.range (bytes.length / 64)).map (fun n =>
    (List.range 16).map (fun j =>
      bytesToWord ((bytes.drop (n * 64 + j * 4)).take 4)))

/-- One step of the message-schedule extension loop (`src/sha256.cpp`
lines 191-192): with `t` entries already present, append
`lowercaseSigma1(W[t-2]) + W[t-7] + lowercaseSigma0(W[t-15]) + W[t-16]`
wrapped modulo 2^32. -/
def wStep (l : List Nat) : List Nat :=
  l ++ [(lowercaseSigma1 (l.getD (l.length - 2) 0) + l.getD (l.length - 7) 0 +
         lowercaseSigma0 (l.getD (l.length - 15) 0) + l.getD (l.length - 16) 0) % 2 ^ 32]

/-- `n` iterations of the message-schedule extension starting from the 16
block words. -/
def wIter (block : List Nat) : Nat → List Nat
  | 0 => block
  | n + 1 => wStep (wIter block n)

/-- The full 64-entry message schedule `W` of one block (`src/sha256.cpp`
lines 189-192): the 16 block words followed by 48 extension steps. -/
def Wlist (block : List Nat) : List Nat := wIter block 48

/-- The eight working variables `a ... h` of `src/sha256.cpp` line 29. -/
structure Regs where (a b c d e f g h : Nat)

/-- One compression round, `t` fixed (`src/sha256.cpp` lines 205-217):
`T1 = h + capitalSigma_1(e) + Ch(e,f,g) + K[t] + W[t]`,
`T2 = capitalSigma_0(a) + Maj(a,b,c)`, then the register shift. -/
def roundT (Wl : List Nat) (t : Nat) (r : Regs) : Regs :=
  let T1 := (r.h + capitalSigma_1 r.e + Ch r.e r.f r.g + K.getD t 0 + Wl.getD t 0) % 2 ^ 32
  let T2 := (capitalSigma_0 r.a + Maj r.a r.b r.c) % 2 ^ 32
  { a := (T1 + T2) % 2 ^ 32, b := r.a, c := r.b, d := r.c,
    e := (r.d + T1) % 2 ^ 32, f := r.e, g := r.f, h := r.g }

/-- Rounds `0, 1, ..., n-1` applied in order. -/
def roundsUpTo (Wl : List Nat) (r : Regs) : Nat → Regs
  | 0 => r
  | n + 1 => roundT Wl n (roundsUpTo Wl r n)

/-- Loading the working variables from the previous hash value
(`src/sha256.cpp` lines 195-202). -/
def initRegs (Hprev : List Nat) : Regs :=
  ⟨Hprev.getD 0 0, Hprev.getD 1 0, Hprev.getD 2 0, Hprev.getD 3 0,
   Hprev.getD 4 0, Hprev.getD 5 0, Hprev.getD 6 0, Hprev.getD 7 0⟩

/-- One full block of `getHash`'s main loop (`src/sha256.cpp` lines 186-229):
schedule, 64 rounds from the previous hash value, then the componentwise
wrapped sum with the previous hash value. -/
def compress (Hprev block : List Nat) : List Nat :=
  let r := roundsUpTo (Wlist block) (initRegs Hprev) 64
  [(r.a + Hprev.getD 0 0) % 2 ^ 32, (r.b + Hprev.getD 1 0) % 2 ^ 32,
   (r.c + Hprev.getD 2 0) % 2 ^ 32, (r.d + Hprev.getD 3 0) % 2 ^ 32,
   (r.e + Hprev.getD 4 0) % 2 ^ 32, (r.f + Hprev.getD 5 0) % 2 ^ 32,
   (r.g + Hprev.getD 6 0) % 2 ^ 32, (r.h + Hprev.getD 7 0) % 2 ^ 32]

/-- The tail of the hash chain built by `getHash`'s main loop: each block's
intermediate hash, starting from state `s`. -/
def hashChainFrom (s : List Nat) : List (List Nat) → List (List Nat)
  | [] => []
  | blk :: rest => compress s blk :: hashChainFrom (compress s blk) rest

/-- `getHash` (`src/sha256.cpp` lines 169-233): the vector `Hash` of
intermediate hash values, `Hash[0] = H0` and one entry pushed per block. -/
def getHash (M : List (List Nat)) : List (List Nat) := H0 :: hashChainFrom H0 M

/-- The digest of a byte sequence as produced by `main`
(`src/sha256.cpp` lines 236-253): pad, parse, hash, and take `Hash[N]`
where `N` is the number of parsed blocks (as `printHash` does). -/
def digest (msg : List Nat) : List Nat :=
  let parsed := parsingMessage (paddingMessage msg)
  (getHash parsed).getD parsed.length []

/-- Spec-side: value of a big-endian byte sequence. -/
def beBytesVal (bs : List Nat) : Nat := bs.foldl (fun acc b => acc * 256 + b) 0

def rotRight32 (n x : Nat) : Nat := x % 2 ^ n * 2 ^ (32 - n) + x / 2 ^ n

/-- The shared mutable globals of `src/sha256.cpp` lines 26-29: the message
schedule array `W` (modelled as a total function on indices) and the working
variables `a, ..., h, T1, T2`.  In the C++ program they have static storage. -/
structure Globals where
  (W : Nat → Nat)
  (a b c d e f g h T1 T2 : Nat)

/-- The global state at program start: zero-initialized statics. -/
def g0 : Globals := ⟨fun _ => 0, 0, 0, 0, 0, 0, 0, 0, 0, 0, 0⟩

/-- The first message-schedule loop (`src/sha256.cpp` lines 189-190): writes
`W[t] = M[i-1][t]` for `t = 0..15`, leaving the other entries alone. -/
def wFirstLoop (W : Nat → Nat) (block : List Nat) : Nat → Nat :=
  fun t => if t < 16 then block.getD t 0 else W t

/-- The second message-schedule loop (`src/sha256.cpp` lines 191-192) after
`j` iterations: sequential writes to `W[16], ..., W[15 + j]`. -/
def wSecondLoop (W : Nat → Nat) : Nat → (Nat → Nat)
  | 0 => W
  | j + 1 =>
    let W' := wSecondLoop W j
    fun t =>
      if t = 16 + j then
        (lowercaseSigma1 (W' (16 + j - 2)) + W' (16 + j - 7) +
         lowercaseSigma0 (W' (16 + j - 15)) + W' (16 + j - 16)) % 2 ^ 32
      else W' t

/-- One round of the compression loop on the global state (`src/sha256.cpp`
lines 205-217), reading `W[t]` from the global schedule array. -/
def roundG (t : Nat) (gs : Globals) : Globals :=
  let T1 := (gs.h + capitalSigma_1 gs.e + Ch gs.e gs.f gs.g + K.getD t 0 + gs.W t) % 2 ^ 32
  let T2 := (capitalSigma_0 gs.a + Maj gs.a gs.b gs.c) % 2 ^ 32
  { gs with
    T1 := T1, T2 := T2, h := gs.g, g := gs.f, f := gs.e,
    e := (gs.d + T1) % 2 ^ 32, d := gs.c, c := gs.b, b := gs.a, a := (T1 + T2) % 2 ^ 32 }

/-- Rounds `0, ..., n-1` on the global state. -/
def roundsG (gs : Globals) : Nat → Globals
  | 0 => gs
  | n + 1 => roundG n (roundsG gs n)

/-- Processing of one block inside `getHash` with explicit global state:
both schedule loops, loading the working variables from the previous hash
value, then the 64 rounds. -/
def processBlockG (gs : Globals) (Hprev block : List Nat) : Globals :=
  roundsG
    { gs with
      W := wSecondLoop (wFirstLoop gs.W block) 48,
      a := Hprev.getD 0 0, b := Hprev.getD 1 0, c := Hprev.getD 2 0, d := Hprev.getD 3 0,
      e := Hprev.getD 4 0, f := Hprev.getD 5 0, g := Hprev.getD 6 0, h := Hprev.getD 7 0 } 64

/-- The tail of the hash chain of `getHash` with the global state threaded. -/
def hashChainG (gs : Globals) (s : List Nat) : List (List Nat) → List (List Nat) × Globals
  | [] => ([], gs)
  | blk :: rest =>
    let gsr := processBlockG gs s blk
    let next := [(gsr.a + s.getD 0 0) % 2 ^ 32, (gsr.b + s.getD 1 0) % 2 ^ 32,
                 (gsr.c + s.getD 2 0) % 2 ^ 32, (gsr.d + s.getD 3 0) % 2 ^ 32,
                 (gsr.e + s.getD 4 0) % 2 ^ 32, (gsr.f + s.getD 5 0) % 2 ^ 32,
                 (gsr.g + s.getD 6 0) % 2 ^ 32, (gsr.h + s.getD 7 0) % 2 ^ 32]
    let p := hashChainG gsr next rest
    (next :: p.1, p.2)

/-- `getHash` with the global mutable state made explicit. -/
def getHashG (gs : Globals) (M : List (List Nat)) : List (List Nat) × Globals :=
  ((H0 :: (hashChainG gs H0 M).1), (hashChainG gs H0 M).2)

/-- The digest pipeline with explicit global state: the value printed by
`printHash` together with the global state left behind by the call. -/
def digestG (gs : Globals) (msg : List Nat) : List Nat × Globals :=
  let parsed := parsingMessage (paddingMessage msg)
  ((getHashG gs parsed).1.getD parsed.length [], (getHashG gs parsed).2)

/-- The working variables `a ... h` of a global state. -/
def regsOf (gs : Globals) : Regs := ⟨gs.a, gs.b, gs.c, gs.d, gs.e, gs.f, gs.g, gs.h⟩

/-- One hex digit as printed by `std::hex` (lowercase letters). -/
def hexDigitChar (n : Nat) : Char :=
  if n < 10 then Char.ofNat (48 + n) else Char.ofNat (87 + n)

/-- The hex rendering of a number, most significant digit first, with no
digits at all for zero (as the bare stream inserter would print before
padding). -/
def hexDigits (n : Nat) : List Char :=
  if h : n = 0 then [] else hexDigits (n / 16) ++ [hexDigitChar (n % 16)]
decreasing_by exact Nat.div_lt_self (Nat.pos_of_ne_zero h) (by omega)

/-- One word as printed by `printHash` with `std::setw(8)` and
`std::setfill('0')`: left-padded with '0' up to width 8. -/
def setwFill8 (n : Nat) : List Char :=
  List.replicate (8 - (hexDigits n).length) '0' ++ hexDigits n

/-- The characters printed by the loop of `printHash`
(`src/sha256.cpp` lines 45-50): the 8 words of `H[N]` in order. -/
def printHashChars (H : List (List Nat)) (N : Nat) : List Char :=
  ((List.range 8).map (fun i => setwFill8 ((H.getD N []).getD i 0))).flatten

def hexCharset : List Char := "0123456789abcdef".toList

/-- The first 64 primes (cube-root sources of the FIPS 180-4 round constants). -/
def firstPrimes : List Nat :=
  [2, 3, 5, 7, 11, 13, 17, 19, 23, 29, 31, 37, 41, 43, 47, 53, 59, 61, 67, 71,
   73, 79, 83, 89, 97, 101, 103, 107, 109, 113, 127, 131, 137, 139, 149, 151,
   157, 163, 167, 173, 179, 181, 191, 193, 197, 199, 211, 223, 227, 229, 233,
   239, 241, 251, 257, 263, 269, 271, 277, 281, 283, 293, 307, 311]

/-- The rotation amounts with which the compression primitives apply ROTR. -/
def rotAmounts : List Nat := [2, 6, 7, 11, 13, 17, 18, 19, 22, 25]

/-! Spec-side primitive functions, written from the formulas in the spec:
all operations reduced to the 32-bit word width, with the complement of a
32-bit word x taken as 2^32 - 1 - x. -/

namespace Spec

def SHR (n x : Nat) : Nat := x >>> n

def ROTR (n x : Nat) : Nat := ((x >>> n) ||| (x <<< (32 - n))) % 2 ^ 32

def Ch (x y z : Nat) : Nat := (x &&& y) ^^^ ((2 ^ 32 - 1 - x) &&& z)

def Maj (x y z : Nat) : Nat := (x &&& y) ^^^ (x &&& z) ^^^ (y &&& z)

def capitalSigma_0 (x : Nat) : Nat := ROTR 2 x ^^^ ROTR 13 x ^^^ ROTR 22 x

def capitalSigma_1 (x : Nat) : Nat := ROTR 6 x ^^^ ROTR 11 x ^^^ ROTR 25 x

def lowercaseSigma0 (x : Nat) : Nat := ROTR 7 x ^^^ ROTR 18 x ^^^ SHR 3 x

def lowercaseSigma1 (x : Nat) : Nat := ROTR 17 x ^^^ ROTR 19 x ^^^ SHR 10 x

end Spec

theorem findPad_eq (L fuel k j : Nat) (hj : j ≤ fuel)
    (hsat : (L + 1 + (k + j)) % 512 = 448)
    (hmin : ∀ i < j, (L + 1 + (k + i)) % 512 ≠ 448) :
    findPad L fuel k = k + j := by
  induction j generalizing fuel k with
  | zero =>
    cases fuel with
    | zero => simp [findPad]
    | succ fuel =>
      have hs : (L + 1 + k) % 512 = 448 := by simpa using hsat
      rw [findPad, if_pos hs]
      omega
  | succ j ih =>
    cases fuel with
    | zero => omega
    | succ fuel =>
      have h0 : ¬ (L + 1 + k) % 512 = 448 := by
        have := hmin 0 (by omega)
        simpa using this
      rw [findPad, if_neg h0]
      have hsat' : (L + 1 + (k + 1 + j)) % 512 = 448 := by
        have : k + 1 + j = k + (j + 1) := by omega
        rw [this]; exact hsat
      have hmin' : ∀ i < j, (L + 1 + (k + 1 + i)) % 512 ≠ 448 := by
        intro i hi
        have : k + 1 + i = k + (i + 1) := by omega
        rw [this]; exact hmin (i + 1) (by omega)
      have := ih fuel (k + 1) (by omega) hsat' hmin'
      omega

theorem getPadding_eq (L : Nat) : getPadding L = (960 - (L + 1) % 512) % 512 := by
  unfold getPadding
  have h := findPad_eq L 512 0 ((960 - (L + 1) % 512) % 512) (by omega) (by omega) ?_
  · omega
  · intro i hi
    omega

theorem lengthBytes_explicit (l : Nat) :
    lengthBytes l = [(l >>> 56) % 256, (l >>> 48) % 256, (l >>> 40) % 256, (l >>> 32) % 256,
                     (l >>> 24) % 256, (l >>> 16) % 256, (l >>> 8) % 256, (l >>> 0) % 256] := rfl

theorem beBytesVal_lengthBytes (l : Nat) (hl : l < 2 ^ 64) :
    beBytesVal (lengthBytes l) = l := by
  rw [lengthBytes_explicit]
  simp only [beBytesVal, List.foldl, Nat.shiftRight_eq_div_pow]
  norm_num
  omega

theorem paddingMessage_length (msg : List Nat) :
    (paddingMessage msg).length = msg.length + 9 + (getPadding (msg.length * 8) - 7) / 8 := by
  simp [paddingMessage, lengthBytes]
  omega

theorem wIter_length (block : List Nat) (n : Nat) :
    (wIter block n).length = block.length + n := by
  induction n with
  | zero => rfl
  | succ n ih =>
    show (wStep (wIter block n)).length = _
    simp [wStep, ih]
    omega

theorem wStep_getD_of_lt (l : List Nat) (i : Nat) (h : i < l.length) :
    (wStep l).getD i 0 = l.getD i 0 := by
  unfold wStep
  rw [List.getD_append _ _ _ _ h]

theorem wIter_getD_stable (block : List Nat) (n m i : Nat) (hnm : n ≤ m)
    (h : i < block.length + n) :
    (wIter block m).getD i 0 = (wIter block n).getD i 0 := by
  induction m with
  | zero =>
    have : n = 0 := by omega
    subst this; rfl
  | succ m ih =>
    rcases Nat.eq_or_lt_of_le hnm with rfl | hlt
    · rfl
    · have hn : n ≤ m := by omega
      show (wStep (wIter block m)).getD i 0 = _
      rw [wStep_getD_of_lt _ _ (by rw [wIter_length]; omega), ih hn]

theorem wIter_getD_new (block : List Nat) (hlen : block.length = 16) (j : Nat) :
    (wIter block (j + 1)).getD (16 + j) 0 =
      (lowercaseSigma1 ((wIter block j).getD (14 + j) 0) + (wIter block j).getD (9 + j) 0 +
       lowercaseSigma0 ((wIter block j).getD (1 + j) 0) + (wIter block j).getD j 0) % 2 ^ 32 := by
  have hl : (wIter block j).length = 16 + j := by rw [wIter_length, hlen]
  show (wStep (wIter block j)).getD (16 + j) 0 = _
  unfold wStep
  rw [List.getD_append_right _ _ _ _ (by omega), hl]
  have h2 : 16 + j - 2 = 14 + j := by omega
  have h7 : 16 + j - 7 = 9 + j := by omega
  have h15 : 16 + j - 15 = 1 + j := by omega
  have h16 : 16 + j - 16 = j := by omega
  rw [h2, h7, h15, h16]
  simp

theorem Wlist_getD_low (block : List Nat) (hlen : block.length = 16) (t : Nat) (ht : t < 16) :
    (Wlist block).getD t 0 = block.getD t 0 := by
  have := wIter_getD_stable block 0 48 t (by omega) (by omega)
  simpa [Wlist] using this

theorem Wlist_getD_rec (block : List Nat) (hlen : block.length = 16) (t : Nat)
    (ht16 : 16 ≤ t) (ht : t < 64) :
    (Wlist block).getD t 0 =
      (lowercaseSigma1 ((Wlist block).getD (t - 2) 0) + (Wlist block).getD (t - 7) 0 +
       lowercaseSigma0 ((Wlist block).getD (t - 15) 0) + (Wlist block).getD (t - 16) 0) % 2 ^ 32 := by
  obtain ⟨j, rfl⟩ : ∃ j, t = 16 + j := ⟨t - 16, by omega⟩
  have h1 : (Wlist block).getD (16 + j) 0 = (wIter block (j + 1)).getD (16 + j) 0 := by
    unfold Wlist
    exact wIter_getD_stable block (j + 1) 48 (16 + j) (by omega) (by omega)
  have h2 : 16 + j - 2 = 14 + j := by omega
  have h7 : 16 + j - 7 = 9 + j := by omega
  have h15 : 16 + j - 15 = 1 + j := by omega
  have h16 : 16 + j - 16 = j := by omega
  rw [h1, wIter_getD_new block hlen j, h2, h7, h15, h16]
  have s2 : (Wlist block).getD (14 + j) 0 = (wIter block j).getD (14 + j) 0 :=
    wIter_getD_stable block j 48 (14 + j) (by omega) (by omega)
  have s7 : (Wlist block).getD (9 + j) 0 = (wIter block j).getD (9 + j) 0 :=
    wIter_getD_stable block j 48 (9 + j) (by omega) (by omega)
  have s15 : (Wlist block).getD (1 + j) 0 = (wIter block j).getD (1 + j) 0 :=
    wIter_getD_stable block j 48 (1 + j) (by omega) (by omega)
  have s16 : (Wlist block).getD j 0 = (wIter block j).getD j 0 :=
    wIter_getD_stable block j 48 j (by omega) (by omega)
  rw [s2, s7, s15, s16]

theorem hashChainFrom_getD (blocks : List (List Nat)) :
    ∀ (s : List Nat) (i : Nat), i < blocks.length →
      (s :: hashChainFrom s blocks).getD (i + 1) [] =
        compress ((s :: hashChainFrom s blocks).getD i []) (blocks.getD i []) := by
  induction blocks with
  | nil => intro s i hi; simp at hi
  | cons blk rest ih =>
    intro s i hi
    cases i with
    | zero => simp [hashChainFrom]
    | succ i =>
      have := ih (compress s blk) i (by simpa using hi)
      simpa [hashChainFrom] using this

theorem hashChainFrom_length (blocks : List (List Nat)) :
    ∀ s : List Nat, (hashChainFrom s blocks).length = blocks.length := by
  induction blocks with
  | nil => intro s; rfl
  | cons blk rest ih => intro s; simp [hashChainFrom, ih]

theorem take4_drop (l : List Nat) (p : Nat) (h : p + 3 < l.length) :
    (l.drop p).take 4 = [l.getD p 0, l.getD (p + 1) 0, l.getD (p + 2) 0, l.getD (p + 3) 0] := by
  rw [List.drop_eq_getElem_cons (by omega : p < l.length),
      List.drop_eq_getElem_cons (by omega : p + 1 < l.length),
      List.drop_eq_getElem_cons (by omega : p + 2 < l.length),
      List.drop_eq_getElem_cons (by omega : p + 3 < l.length)]
  rw [List.getD_eq_getElem l 0 (by omega : p < l.length),
      List.getD_eq_getElem l 0 (by omega : p + 1 < l.length),
      List.getD_eq_getElem l 0 (by omega : p + 2 < l.length),
      List.getD_eq_getElem l 0 (by omega : p + 3 < l.length)]
  rfl

theorem or256 (w b : Nat) (hb : b < 256) : w * 2 ^ 8 ||| b = w * 2 ^ 8 + b := by
  rw [Nat.mul_comm w (2 ^ 8)]
  exact (Nat.mul_add_lt_is_or (i := 8) (by omega) w).symm

theorem bytesToWord_quad (b0 b1 b2 b3 : Nat) (h0 : b0 < 256) (h1 : b1 < 256)
    (h2 : b2 < 256) (h3 : b3 < 256) :
    bytesToWord [b0, b1, b2, b3] = b0 * 2 ^ 24 + b1 * 2 ^ 16 + b2 * 2 ^ 8 + b3 := by
  have s1 : (b0 * 2 ^ 8) % 2 ^ 32 ||| b1 = b0 * 2 ^ 8 + b1 := by
    rw [Nat.mod_eq_of_lt (by omega), or256 _ _ h1]
  have s2 : ((b0 * 2 ^ 8 + b1) * 2 ^ 8) % 2 ^ 32 ||| b2 = (b0 * 2 ^ 8 + b1) * 2 ^ 8 + b2 := by
    rw [Nat.mod_eq_of_lt (by omega), or256 _ _ h2]
  have s3 : (((b0 * 2 ^ 8 + b1) * 2 ^ 8 + b2) * 2 ^ 8) % 2 ^ 32 ||| b3 =
      ((b0 * 2 ^ 8 + b1) * 2 ^ 8 + b2) * 2 ^ 8 + b3 := by
    rw [Nat.mod_eq_of_lt (by omega), or256 _ _ h3]
  calc bytesToWord [b0, b1, b2, b3]
      = ((((b0 * 2 ^ 8) % 2 ^ 32 ||| b1) * 2 ^ 8) % 2 ^ 32 ||| b2) * 2 ^ 8 % 2 ^ 32 ||| b3 := by
        simp only [bytesToWord, List.foldl, Nat.shiftLeft_eq, Nat.zero_shiftLeft, Nat.zero_mul,
          Nat.zero_mod, Nat.zero_or]
    _ = ((b0 * 2 ^ 8 + b1) * 2 ^ 8 + b2) * 2 ^ 8 + b3 := by rw [s1, s2, s3]
    _ = b0 * 2 ^ 24 + b1 * 2 ^ 16 + b2 * 2 ^ 8 + b3 := by ring

theorem xor_mask (n : Nat) : ∀ x, x < 2 ^ n → x ^^^ (2 ^ n - 1) = 2 ^ n - 1 - x := by
  induction n with
  | zero => intro x hx; interval_cases x; rfl
  | succ n ih =>
    intro x hx
    have hd : (x ^^^ (2 ^ (n + 1) - 1)) / 2 = (x / 2) ^^^ (2 ^ n - 1) := by
      rw [Nat.xor_div_two]
      congr 1
      omega
    have hdiv := ih (x / 2) (by omega)
    have hm : (x ^^^ (2 ^ (n + 1) - 1)) % 2 = 1 ↔ ¬ (x % 2 = 1) := by
      rw [Nat.xor_mod_two_eq_one]
      have h2 : 2 ^ (n + 1) = 2 * 2 ^ n := by ring
      constructor
      · intro h
        omega
      · intro h
        omega
    have e1 : (x ^^^ (2 ^ (n + 1) - 1)) =
        2 * ((x ^^^ (2 ^ (n + 1) - 1)) / 2) + (x ^^^ (2 ^ (n + 1) - 1)) % 2 := by omega
    have h2 : 2 ^ (n + 1) = 2 * 2 ^ n := by ring
    have hle : (x ^^^ (2 ^ (n + 1) - 1)) % 2 < 2 := Nat.mod_lt _ (by omega)
    rw [hd, hdiv] at e1
    omega

theorem or_mod_two_pow (a b n : Nat) (ha : a < 2 ^ n) :
    a ||| b % 2 ^ n = (a ||| b) % 2 ^ n := by
  apply Nat.eq_of_testBit_eq
  intro i
  rw [Nat.testBit_or, Nat.testBit_mod_two_pow, Nat.testBit_mod_two_pow, Nat.testBit_or]
  by_cases h : i < n
  · simp [h]
  · have hni : n ≤ i := by omega
    have ha' : a < 2 ^ i := lt_of_lt_of_le ha (Nat.pow_le_pow_right (by omega) hni)
    simp [h, Nat.testBit_lt_two_pow ha']

theorem shiftRight_lt_two_pow (x n : Nat) (hx : x < 2 ^ 32) : x >>> n < 2 ^ 32 := by
  rw [Nat.shiftRight_eq_div_pow]
  exact lt_of_le_of_lt (Nat.div_le_self _ _) hx

theorem ROTR_eq_spec (n x : Nat) (hx : x < 2 ^ 32) : ROTR n x = Spec.ROTR n x := by
  unfold ROTR Spec.ROTR
  exact or_mod_two_pow _ _ _ (shiftRight_lt_two_pow x n hx)

theorem ROTR_lt (n x : Nat) (hx : x < 2 ^ 32) : ROTR n x < 2 ^ 32 :=
  Nat.or_lt_two_pow (shiftRight_lt_two_pow x n hx) (Nat.mod_lt _ (by norm_num))

theorem Ch_eq_spec (x y z : Nat) (hx : x < 2 ^ 32) : Ch x y z = Spec.Ch x y z := by
  unfold Ch Spec.Ch
  rw [show (0xffffffff : Nat) = 2 ^ 32 - 1 by norm_num, xor_mask 32 x hx]

theorem ROTR_eq_rotRight32 (n x : Nat) (hn : 0 < n) (hn32 : n < 32) (hx : x < 2 ^ 32) :
    ROTR n x = rotRight32 n x := by
  unfold ROTR rotRight32
  rw [Nat.shiftRight_eq_div_pow, Nat.shiftLeft_eq]
  have hsplit : (2 : Nat) ^ 32 = 2 ^ n * 2 ^ (32 - n) := by
    rw [← pow_add]
    congr 1
    omega
  have hmod : x * 2 ^ (32 - n) % 2 ^ 32 = x % 2 ^ n * 2 ^ (32 - n) := by
    rw [hsplit, Nat.mul_mod_mul_right]
  rw [hmod]
  have hlt : x / 2 ^ n < 2 ^ (32 - n) := by
    apply Nat.div_lt_of_lt_mul
    calc x < 2 ^ 32 := hx
    _ = 2 ^ n * 2 ^ (32 - n) := hsplit
  have hor := Nat.mul_add_lt_is_or (i := 32 - n) hlt (x % 2 ^ n)
  rw [Nat.lor_comm, Nat.mul_comm (x % 2 ^ n) (2 ^ (32 - n))]
  exact hor.symm

theorem wSecondLoop_eq_Wlist (block : List Nat) (hlen : block.length = 16) (Wb : Nat → Nat)
    (hbase : ∀ t < 16, Wb t = block.getD t 0) :
    ∀ j, j ≤ 48 → ∀ t, t < 16 + j → wSecondLoop Wb j t = (wIter block j).getD t 0 := by
  intro j
  induction j with
  | zero => intro _ t ht; exact hbase t ht
  | succ j ih =>
    intro hj t ht
    simp only [wSecondLoop]
    by_cases h : t = 16 + j
    · subst h
      rw [if_pos rfl, wIter_getD_new block hlen j]
      rw [show 16 + j - 2 = 14 + j by omega, show 16 + j - 7 = 9 + j by omega,
          show 16 + j - 15 = 1 + j by omega, show 16 + j - 16 = j by omega]
      rw [ih (by omega) (14 + j) (by omega), ih (by omega) (9 + j) (by omega),
          ih (by omega) (1 + j) (by omega), ih (by omega) j (by omega)]
    · rw [if_neg h, ih (by omega) t (by omega)]
      exact (wIter_getD_stable block j (j + 1) t (by omega) (by omega)).symm

theorem roundsG_W (gs : Globals) : ∀ n, (roundsG gs n).W = gs.W := by
  intro n
  induction n with
  | zero => rfl
  | succ n ih => show (roundG n (roundsG gs n)).W = gs.W; rw [← ih]; rfl

theorem roundsG_regs (Wl : List Nat) (gs : Globals)
    (hW : ∀ t, t < 64 → gs.W t = Wl.getD t 0) :
    ∀ n, n ≤ 64 → regsOf (roundsG gs n) = roundsUpTo Wl (regsOf gs) n := by
  intro n
  induction n with
  | zero => intro _; rfl
  | succ n ih =>
    intro hn
    show regsOf (roundG n (roundsG gs n)) = roundT Wl n (roundsUpTo Wl (regsOf gs) n)
    rw [← ih (by omega)]
    have hWn : (roundsG gs n).W n = Wl.getD n 0 := by
      rw [roundsG_W]; exact hW n (by omega)
    simp only [roundG, roundT, regsOf, hWn]

theorem processBlockG_regs (gs : Globals) (Hprev block : List Nat) (hlen : block.length = 16) :
    regsOf (processBlockG gs Hprev block) = roundsUpTo (Wlist block) (initRegs Hprev) 64 := by
  have hW : ∀ t, t < 64 → wSecondLoop (wFirstLoop gs.W block) 48 t = (Wlist block).getD t 0 :=
    fun t ht => wSecondLoop_eq_Wlist block hlen (wFirstLoop gs.W block)
      (fun u hu => by simp [wFirstLoop, hu]) 48 le_rfl t ht
  exact roundsG_regs (Wlist block) _ hW 64 le_rfl

theorem parsingMessage_length (bytes : List Nat) :
    (parsingMessage bytes).length = bytes.length / 64 := by
  simp [parsingMessage]

theorem parsingMessage_block_length (bytes : List Nat) :
    ∀ blk ∈ parsingMessage bytes, blk.length = 16 := by
  intro blk h
  simp only [parsingMessage, List.mem_map] at h
  obtain ⟨n, _, rfl⟩ := h
  simp

theorem parsingMessage_word (bytes : List Nat) (n j : Nat)
    (hn : n < bytes.length / 64) (hj : j < 16) :
    ((parsingMessage bytes).getD n []).getD j 0 =
      bytesToWord ((bytes.drop (n * 64 + j * 4)).take 4) := by
  have h1 : (parsingMessage bytes).getD n [] =
      (List.range 16).map (fun j => bytesToWord ((bytes.drop (n * 64 + j * 4)).take 4)) := by
    unfold parsingMessage
    rw [List.getD_eq_getElem _ _ (by simpa using hn), List.getElem_map, List.getElem_range]
  rw [h1, List.getD_eq_getElem _ _ (by simpa using hj), List.getElem_map, List.getElem_range]

theorem hashChainG_fst (blocks : List (List Nat)) :
    (∀ blk ∈ blocks, blk.length = 16) →
    ∀ (gs : Globals) (s : List Nat), (hashChainG gs s blocks).1 = hashChainFrom s blocks := by
  induction blocks with
  | nil => intro _ gs s; rfl
  | cons blk rest ih =>
    intro hall gs s
    have hblk : blk.length = 16 := hall blk (by simp)
    have hregs := processBlockG_regs gs s blk hblk
    have ha : (processBlockG gs s blk).a = (roundsUpTo (Wlist blk) (initRegs s) 64).a :=
      congrArg Regs.a hregs
    have hb : (processBlockG gs s blk).b = (roundsUpTo (Wlist blk) (initRegs s) 64).b :=
      congrArg Regs.b hregs
    have hc : (processBlockG gs s blk).c = (roundsUpTo (Wlist blk) (initRegs s) 64).c :=
      congrArg Regs.c hregs
    have hd : (processBlockG gs s blk).d = (roundsUpTo (Wlist blk) (initRegs s) 64).d :=
      congrArg Regs.d hregs
    have he : (processBlockG gs s blk).e = (roundsUpTo (Wlist blk) (initRegs s) 64).e :=
      congrArg Regs.e hregs
    have hf : (processBlockG gs s blk).f = (roundsUpTo (Wlist blk) (initRegs s) 64).f :=
      congrArg Regs.f hregs
    have hg : (processBlockG gs s blk).g = (roundsUpTo (Wlist blk) (initRegs s) 64).g :=
      congrArg Regs.g hregs
    have hh : (processBlockG gs s blk).h = (roundsUpTo (Wlist blk) (initRegs s) 64).h :=
      congrArg Regs.h hregs
    show (hashChainG gs s (blk :: rest)).1 = hashChainFrom s (blk :: rest)
    simp only [hashChainG, hashChainFrom]
    rw [ha, hb, hc, hd, he, hf, hg, hh]
    have hnext : [((roundsUpTo (Wlist blk) (initRegs s) 64).a + s.getD 0 0) % 2 ^ 32,
        ((roundsUpTo (Wlist blk) (initRegs s) 64).b + s.getD 1 0) % 2 ^ 32,
        ((roundsUpTo (Wlist blk) (initRegs s) 64).c + s.getD 2 0) % 2 ^ 32,
        ((roundsUpTo (Wlist blk) (initRegs s) 64).d + s.getD 3 0) % 2 ^ 32,
        ((roundsUpTo (Wlist blk) (initRegs s) 64).e + s.getD 4 0) % 2 ^ 32,
        ((roundsUpTo (Wlist blk) (initRegs s) 64).f + s.getD 5 0) % 2 ^ 32,
        ((roundsUpTo (Wlist blk) (initRegs s) 64).g + s.getD 6 0) % 2 ^ 32,
        ((roundsUpTo (Wlist blk) (initRegs s) 64).h + s.getD 7 0) % 2 ^ 32] = compress s blk := rfl
    rw [hnext, ih (fun b hb => hall b (by simp [hb])) (processBlockG gs s blk) (compress s blk)]

theorem getHashG_fst (M : List (List Nat)) (hall : ∀ blk ∈ M, blk.length = 16) (gs : Globals) :
    (getHashG gs M).1 = getHash M := by
  unfold getHashG getHash
  rw [hashChainG_fst M hall gs H0]

theorem digestG_fst (gs : Globals) (msg : List Nat) : (digestG gs msg).1 = digest msg := by
  simp only [digestG, digest]
  rw [getHashG_fst _ (parsingMessage_block_length _) gs]

theorem hexDigits_zero : hexDigits 0 = [] := by
  rw [hexDigits]
  simp

theorem hexDigits_length_le : ∀ k n, n < 16 ^ k → (hexDigits n).length ≤ k := by
  intro k
  induction k with
  | zero => intro n hn; interval_cases n; simp [hexDigits_zero]
  | succ k ih =>
    intro n hn
    by_cases h : n = 0
    · subst h; simp [hexDigits_zero]
    · rw [hexDigits, dif_neg h]
      have h16 : 16 ^ (k + 1) = 16 ^ k * 16 := by ring
      have := ih (n / 16) (by omega)
      simp only [List.length_append, List.length_cons, List.length_nil]
      omega

theorem setwFill8_length (n : Nat) (hn : n < 2 ^ 32) : (setwFill8 n).length = 8 := by
  have h : n < 16 ^ 8 := by norm_num at hn ⊢; omega
  have := hexDigits_length_le 8 n h
  simp only [setwFill8, List.length_append, List.length_replicate]
  omega

theorem hexDigitChar_mem (k : Nat) (hk : k < 16) : hexDigitChar k ∈ hexCharset := by
  interval_cases k <;> decide

theorem hexDigits_subset (n : Nat) : ∀ c ∈ hexDigits n, c ∈ hexCharset := by
  induction n using Nat.strong_induction_on with
  | _ n ih =>
    intro c hc
    by_cases h : n = 0
    · subst h; rw [hexDigits_zero] at hc; simp at hc
    · rw [hexDigits, dif_neg h] at hc
      rcases List.mem_append.mp hc with h1 | h2
      · exact ih (n / 16) (Nat.div_lt_self (Nat.pos_of_ne_zero h) (by omega)) c h1
      · have : c = hexDigitChar (n % 16) := by simpa using h2
        subst this
        exact hexDigitChar_mem _ (Nat.mod_lt _ (by omega))

theorem setwFill8_subset (n : Nat) : ∀ c ∈ setwFill8 n, c ∈ hexCharset := by
  intro c hc
  rcases List.mem_append.mp hc with h1 | h2
  · have : c = '0' := List.eq_of_mem_replicate h1
    subst this; decide
  · exact hexDigits_subset n c h2

theorem compress_length (Hprev blk : List Nat) : (compress Hprev blk).length = 8 := rfl

theorem compress_mem_lt (Hprev blk : List Nat) : ∀ w ∈ compress Hprev blk, w < 2 ^ 32 := by
  intro w hw
  simp only [compress, List.mem_cons, List.not_mem_nil, or_false] at hw
  rcases hw with rfl | rfl | rfl | rfl | rfl | rfl | rfl | rfl <;>
    exact Nat.mod_lt _ (by norm_num)

theorem hashChainFrom_shape (blocks : List (List Nat)) :
    ∀ s x, x ∈ hashChainFrom s blocks → ∃ s' b, x = compress s' b := by
  induction blocks with
  | nil => intro s x hx; simp [hashChainFrom] at hx
  | cons blk rest ih =>
    intro s x hx
    rcases List.mem_cons.mp hx with rfl | h
    · exact ⟨s, blk, rfl⟩
    · exact ih (compress s blk) x h

theorem getHash_getD_shape (M : List (List Nat)) (hpos : 1 ≤ M.length) :
    ∃ s b, (getHash M).getD M.length [] = compress s b := by
  obtain ⟨i, hi⟩ : ∃ i, M.length = i + 1 := ⟨M.length - 1, by omega⟩
  unfold getHash
  rw [hi, List.getD_cons_succ]
  have hlen : i < (hashChainFrom H0 M).length := by
    rw [hashChainFrom_length]; omega
  rw [List.getD_eq_getElem _ _ hlen]
  exact hashChainFrom_shape M H0 _ (List.getElem_mem hlen)

theorem parsedLength_pos (msg : List Nat) :
    1 ≤ (parsingMessage (paddingMessage msg)).length := by
  rw [parsingMessage_length, paddingMessage_length]
  have h := getPadding_eq (msg.length * 8)
  omega

theorem digest_shape (msg : List Nat) : ∃ s b, digest msg = compress s b := by
  show ∃ s b, (getHash (parsingMessage (paddingMessage msg))).getD
    (parsingMessage (paddingMessage msg)).length [] = compress s b
  exact getHash_getD_shape _ (parsedLength_pos msg)

set_option maxRecDepth 8000 in
/-- C1: Known-answer tests: the full pipeline (padding, parsing, compression)
maps the empty byte sequence to the digest
e3b0c44298fc1c149afbf4c8996fb92427ae41e4649b934ca495991b7852b855 and the three
bytes 0x61 0x62 0x63 to
ba7816bf8f01cfea414140de5dae2223b00361a396177a9cb410ff61f20015ad. -/
theorem digest_known_answer_tests :
    digest [] =
      [0xe3b0c442, 0x98fc1c14, 0x9afbf4c8, 0x996fb924,
       0x27ae41e4, 0x649b934c, 0xa495991b, 0x7852b855] ∧
    digest [0x61, 0x62, 0x63] =
      [0xba7816bf, 0x8f01cfea, 0x414140de, 0x5dae2223,
       0xb00361a3, 0x96177a9c, 0xb410ff61, 0xf20015ad] := by
  constructor
  · decide
  · decide

/-- C2: `getHash` processes the parsed blocks in order starting from the fixed
initial hash value: the chain starts at H0 and has one entry per block; for
each block, W[0..15] are the block words verbatim and
W[t] = sigma1(W[t-2]) + W[t-7] + sigma0(W[t-15]) + W[t-16] mod 2^32 for
t in 16..63; the 8 working registers are loaded from the previous running
state; each of the 64 rounds computes T1 and T2 and shifts the registers; and
the next running state is the previous state plus the final registers,
componentwise mod 2^32. -/
theorem getHash_block_structure (M : List (List Nat)) (hM : ∀ blk ∈ M, blk.length = 16) :
    (getHash M).getD 0 [] = H0 ∧
    (getHash M).length = M.length + 1 ∧
    ∀ i < M.length,
      (∀ t < 16, (Wlist (M.getD i [])).getD t 0 = (M.getD i []).getD t 0) ∧
      (∀ t, 16 ≤ t → t < 64 →
        (Wlist (M.getD i [])).getD t 0 =
          (lowercaseSigma1 ((Wlist (M.getD i [])).getD (t - 2) 0) +
           (Wlist (M.getD i [])).getD (t - 7) 0 +
           lowercaseSigma0 ((Wlist (M.getD i [])).getD (t - 15) 0) +
           (Wlist (M.getD i [])).getD (t - 16) 0) % 2 ^ 32) ∧
      roundsUpTo (Wlist (M.getD i [])) (initRegs ((getHash M).getD i [])) 0 =
        initRegs ((getHash M).getD i []) ∧
      (∀ t < 64,
        roundsUpTo (Wlist (M.getD i [])) (initRegs ((getHash M).getD i [])) (t + 1) =
          (let r := roundsUpTo (Wlist (M.getD i [])) (initRegs ((getHash M).getD i [])) t
           let T1 := (r.h + capitalSigma_1 r.e + Ch r.e r.f r.g + K.getD t 0 +
             (Wlist (M.getD i [])).getD t 0) % 2 ^ 32
           let T2 := (capitalSigma_0 r.a + Maj r.a r.b r.c) % 2 ^ 32
           { a := (T1 + T2) % 2 ^ 32, b := r.a, c := r.b, d := r.c,
             e := (r.d + T1) % 2 ^ 32, f := r.e, g := r.f, h := r.g })) ∧
      (getHash M).getD (i + 1) [] =
        (let r := roundsUpTo (Wlist (M.getD i [])) (initRegs ((getHash M).getD i [])) 64
         [(r.a + ((getHash M).getD i []).getD 0 0) % 2 ^ 32,
          (r.b + ((getHash M).getD i []).getD 1 0) % 2 ^ 32,
          (r.c + ((getHash M).getD i []).getD 2 0) % 2 ^ 32,
          (r.d + ((getHash M).getD i []).getD 3 0) % 2 ^ 32,
          (r.e + ((getHash M).getD i []).getD 4 0) % 2 ^ 32,
          (r.f + ((getHash M).getD i []).getD 5 0) % 2 ^ 32,
          (r.g + ((getHash M).getD i []).getD 6 0) % 2 ^ 32,
          (r.h + ((getHash M).getD i []).getD 7 0) % 2 ^ 32]) := by
  refine ⟨rfl, ?_, ?_⟩
  · show (H0 :: hashChainFrom H0 M).length = M.length + 1
    simp [hashChainFrom_length]
  · intro i hi
    have hmem : M.getD i [] ∈ M := by
      rw [List.getD_eq_getElem _ _ hi]
      exact List.getElem_mem hi
    have hlen : (M.getD i []).length = 16 := hM _ hmem
    refine ⟨Wlist_getD_low _ hlen, Wlist_getD_rec _ hlen, rfl, fun t ht => rfl, ?_⟩
    exact hashChainFrom_getD M H0 i hi

/-- C2 witness: the theorem applied at the concrete one-block input consisting
of 16 zero words. -/
theorem getHash_block_structure_witness :
    (getHash [List.replicate 16 0]).getD 0 [] = H0 :=
  (getHash_block_structure [List.replicate 16 0] (by simp)).1

/-- C3: for a byte sequence of bit-length L = 8 * length < 2^64,
`paddingMessage` appends 0x80, then the minimum number of zero bytes making the
length without the final 64-bit field congruent to 448 mod 512 bits, then L as
a 64-bit unsigned big-endian integer; the resulting bit-length is a multiple
of 512, at least L + 65, and below L + 65 + 512 (hence the smallest such
multiple of 512). -/
theorem paddingMessage_structure (msg : List Nat) (hL : msg.length * 8 < 2 ^ 64) :
    (∃ z, paddingMessage msg =
        msg ++ [0x80] ++ List.replicate z 0 ++ lengthBytes (msg.length * 8) ∧
        (8 * (msg.length + 1 + z)) % 512 = 448 ∧
        ∀ z' < z, (8 * (msg.length + 1 + z')) % 512 ≠ 448) ∧
    (lengthBytes (msg.length * 8)).length = 8 ∧
    (∀ b ∈ lengthBytes (msg.length * 8), b < 256) ∧
    beBytesVal (lengthBytes (msg.length * 8)) = msg.length * 8 ∧
    ((paddingMessage msg).length * 8) % 512 = 0 ∧
    msg.length * 8 + 65 ≤ (paddingMessage msg).length * 8 ∧
    (paddingMessage msg).length * 8 < msg.length * 8 + 65 + 512 := by
  have hk := getPadding_eq (msg.length * 8)
  have hlen := paddingMessage_length msg
  refine ⟨⟨(getPadding (msg.length * 8) - 7) / 8, ?_, by omega, ?_⟩, rfl, ?_,
    beBytesVal_lengthBytes _ hL, by omega, by omega, by omega⟩
  · unfold paddingMessage
    simp [List.append_assoc]
  · intro z' hz' hc
    omega
  · intro b hb
    rw [lengthBytes_explicit] at hb
    simp only [List.mem_cons, List.not_mem_nil, or_false] at hb
    rcases hb with rfl | rfl | rfl | rfl | rfl | rfl | rfl | rfl <;>
      exact Nat.mod_lt _ (by norm_num)

/-- C3 witness: the theorem applied to the empty byte sequence. -/
theorem paddingMessage_structure_witness :
    (lengthBytes (([] : List Nat).length * 8)).length = 8 :=
  (paddingMessage_structure [] (by norm_num)).2.1

/-- C4: `parsingMessage` produces exactly length / 64 blocks, in input order,
each of 16 unsigned 32-bit words assembled 4 bytes at a time with the most
significant byte first; through the full pipeline the empty message gives 1
block, a 55-byte message 1 block, and a 56-byte message 2 blocks. -/
theorem parsingMessage_blocks (bytes : List Nat) (hb : ∀ b ∈ bytes, b < 256) :
    (parsingMessage bytes).length = bytes.length / 64 ∧
    (∀ blk ∈ parsingMessage bytes, blk.length = 16) ∧
    (∀ n j, n < bytes.length / 64 → j < 16 →
      ((parsingMessage bytes).getD n []).getD j 0 =
        bytes.getD (n * 64 + j * 4) 0 * 2 ^ 24 + bytes.getD (n * 64 + j * 4 + 1) 0 * 2 ^ 16 +
        bytes.getD (n * 64 + j * 4 + 2) 0 * 2 ^ 8 + bytes.getD (n * 64 + j * 4 + 3) 0) ∧
    (∀ msg : List Nat, msg.length = 0 → (parsingMessage (paddingMessage msg)).length = 1) ∧
    (∀ msg : List Nat, msg.length = 55 → (parsingMessage (paddingMessage msg)).length = 1) ∧
    (∀ msg : List Nat, msg.length = 56 → (parsingMessage (paddingMessage msg)).length = 2) := by
  refine ⟨parsingMessage_length bytes, parsingMessage_block_length bytes, ?_, ?_, ?_, ?_⟩
  · intro n j hn hj
    have hbound : n * 64 + j * 4 + 3 < bytes.length := by omega
    have hin : ∀ d, n * 64 + j * 4 + d < bytes.length → bytes.getD (n * 64 + j * 4 + d) 0 < 256 :=
      fun d hd => by
        rw [List.getD_eq_getElem _ _ hd]
        exact hb _ (List.getElem_mem hd)
    rw [parsingMessage_word bytes n j hn hj, take4_drop _ _ hbound]
    have e0 : bytes.getD (n * 64 + j * 4) 0 < 256 := by
      have := hin 0 (by omega)
      simpa using this
    rw [bytesToWord_quad _ _ _ _ e0 (hin 1 (by omega)) (hin 2 (by omega)) (hin 3 (by omega))]
  · intro msg h0
    rw [parsingMessage_length, paddingMessage_length, h0]
    have := getPadding_eq (0 * 8)
    omega
  · intro msg h55
    rw [parsingMessage_length, paddingMessage_length, h55]
    have := getPadding_eq (55 * 8)
    omega
  · intro msg h56
    rw [parsingMessage_length, paddingMessage_length, h56]
    have := getPadding_eq (56 * 8)
    omega

/-- C4 witness: the theorem applied to a concrete 64-byte sequence. -/
theorem parsingMessage_blocks_witness :
    (parsingMessage (List.replicate 64 7)).length = (List.replicate 64 7 : List Nat).length / 64 :=
  (parsingMessage_blocks (List.replicate 64 7)
    (fun b hb => by rw [List.eq_of_mem_replicate hb]; norm_num)).1

set_option maxRecDepth 40000 in
set_option maxHeartbeats 2000000 in
/-- C5: the initial hash value equals the eight published words, and each of
the 64 entries of K is the first 32 bits of the fractional part of the cube
root of the corresponding member of the (verified) list of the first 64
primes: with a the integer part of the cube root, 2^32 * a + K[i] is the floor
of 2^32 times the cube root of the i-th prime. -/
theorem constants_match_fips :
    H0 = [0x6a09e667, 0xbb67ae85, 0x3c6ef372, 0xa54ff53a,
          0x510e527f, 0x9b05688c, 0x1f83d9ab, 0x5be0cd19] ∧
    K.length = 64 ∧
    firstPrimes.length = 64 ∧
    firstPrimes.getD 0 0 = 2 ∧
    (∀ p ∈ firstPrimes, Nat.Prime p) ∧
    (∀ i < 63, firstPrimes.getD i 0 < firstPrimes.getD (i + 1) 0) ∧
    (∀ i < 63, ∀ x < firstPrimes.getD (i + 1) 0, firstPrimes.getD i 0 < x → ¬ Nat.Prime x) ∧
    (∀ x < 2, ¬ Nat.Prime x) ∧
    (∀ i < 64, K.getD i 0 < 2 ^ 32 ∧
      ∃ a < 7, (2 ^ 32 * a + K.getD i 0) ^ 3 ≤ firstPrimes.getD i 0 * 2 ^ 96 ∧
        firstPrimes.getD i 0 * 2 ^ 96 < (2 ^ 32 * a + K.getD i 0 + 1) ^ 3) := by
  letI : DecidablePred Nat.Prime := Nat.decidablePrime1
  refine ⟨rfl, rfl, rfl, rfl, by decide, by decide, by decide, by decide, by decide⟩

/-- C5 witness: the theorem instantiated at the first table entry. -/
theorem constants_match_fips_witness : Nat.Prime 2 :=
  constants_match_fips.2.2.2.2.1 2 (by decide)

/-- C6: on 32-bit words, each of the eight primitive functions agrees with its
spec definition (with the complement in Ch read as the 32-bit bitwise
complement 2^32 - 1 - x), and each returns a 32-bit word. -/
theorem primitive_functions_match_spec :
    (∀ n x, x < 2 ^ 32 → SHR n x = Spec.SHR n x ∧ SHR n x < 2 ^ 32) ∧
    (∀ n x, x < 2 ^ 32 → ROTR n x = Spec.ROTR n x ∧ ROTR n x < 2 ^ 32) ∧
    (∀ x y z, x < 2 ^ 32 → y < 2 ^ 32 → z < 2 ^ 32 →
      Ch x y z = Spec.Ch x y z ∧ Ch x y z < 2 ^ 32) ∧
    (∀ x y z, x < 2 ^ 32 → y < 2 ^ 32 → z < 2 ^ 32 →
      Maj x y z = Spec.Maj x y z ∧ Maj x y z < 2 ^ 32) ∧
    (∀ x, x < 2 ^ 32 → capitalSigma_0 x = Spec.capitalSigma_0 x ∧ capitalSigma_0 x < 2 ^ 32) ∧
    (∀ x, x < 2 ^ 32 → capitalSigma_1 x = Spec.capitalSigma_1 x ∧ capitalSigma_1 x < 2 ^ 32) ∧
    (∀ x, x < 2 ^ 32 → lowercaseSigma0 x = Spec.lowercaseSigma0 x ∧ lowercaseSigma0 x < 2 ^ 32) ∧
    (∀ x, x < 2 ^ 32 → lowercaseSigma1 x = Spec.lowercaseSigma1 x ∧ lowercaseSigma1 x < 2 ^ 32) := by
  have hshr : ∀ n x : Nat, x < 2 ^ 32 → x >>> n < 2 ^ 32 := fun n x hx =>
    shiftRight_lt_two_pow x n hx
  refine ⟨fun n x hx => ⟨rfl, hshr n x hx⟩,
    fun n x hx => ⟨ROTR_eq_spec n x hx, ROTR_lt n x hx⟩,
    fun x y z hx hy hz => ⟨Ch_eq_spec x y z hx, ?_⟩,
    fun x y z hx hy hz => ⟨rfl, ?_⟩, fun x hx => ⟨?_, ?_⟩,
    fun x hx => ⟨?_, ?_⟩, fun x hx => ⟨?_, ?_⟩, fun x hx => ⟨?_, ?_⟩⟩
  · exact Nat.xor_lt_two_pow (Nat.and_lt_two_pow _ hy) (Nat.and_lt_two_pow _ hz)
  · exact Nat.xor_lt_two_pow
      (Nat.xor_lt_two_pow (Nat.and_lt_two_pow _ hy) (Nat.and_lt_two_pow _ hz))
      (Nat.and_lt_two_pow _ hz)
  · unfold capitalSigma_0 Spec.capitalSigma_0
    rw [ROTR_eq_spec 2 x hx, ROTR_eq_spec 13 x hx, ROTR_eq_spec 22 x hx]
  · exact Nat.xor_lt_two_pow (Nat.xor_lt_two_pow (ROTR_lt 2 x hx) (ROTR_lt 13 x hx))
      (ROTR_lt 22 x hx)
  · unfold capitalSigma_1 Spec.capitalSigma_1
    rw [ROTR_eq_spec 6 x hx, ROTR_eq_spec 11 x hx, ROTR_eq_spec 25 x hx]
  · exact Nat.xor_lt_two_pow (Nat.xor_lt_two_pow (ROTR_lt 6 x hx) (ROTR_lt 11 x hx))
      (ROTR_lt 25 x hx)
  · unfold lowercaseSigma0 Spec.lowercaseSigma0
    rw [ROTR_eq_spec 7 x hx, ROTR_eq_spec 18 x hx]
    rfl
  · exact Nat.xor_lt_two_pow (Nat.xor_lt_two_pow (ROTR_lt 7 x hx) (ROTR_lt 18 x hx))
      (hshr 3 x hx)
  · unfold lowercaseSigma1 Spec.lowercaseSigma1
    rw [ROTR_eq_spec 17 x hx, ROTR_eq_spec 19 x hx]
    rfl
  · exact Nat.xor_lt_two_pow (Nat.xor_lt_two_pow (ROTR_lt 17 x hx) (ROTR_lt 19 x hx))
      (hshr 10 x hx)

/-- C6 witness: the Ch clause of the theorem at a concrete word triple. -/
theorem primitive_functions_match_spec_witness : Ch 1 2 3 = Spec.Ch 1 2 3 :=
  (primitive_functions_match_spec.2.2.1 1 2 3 (by norm_num) (by norm_num) (by norm_num)).1

/-- C7: the pipeline is deterministic and leaks no state across calls: its
output never depends on the incoming values of the shared mutable globals
(W, a..h, T1, T2), so running it after any earlier run gives the same digest
as running it on a fresh zero-initialized state, and it always equals the
pure function of the input bytes. -/
theorem digest_deterministic_no_leak :
    (∀ gs msg, (digestG gs msg).1 = digest msg) ∧
    (∀ gs1 gs2 msg, (digestG gs1 msg).1 = (digestG gs2 msg).1) ∧
    (∀ gs m1 m2, (digestG (digestG gs m1).2 m2).1 = (digestG g0 m2).1) ∧
    (∀ gs msg, (digestG (digestG gs msg).2 msg).1 = (digestG gs msg).1) := by
  refine ⟨digestG_fst, fun gs1 gs2 msg => ?_, fun gs m1 m2 => ?_, fun gs msg => ?_⟩
  · rw [digestG_fst, digestG_fst]
  · rw [digestG_fst, digestG_fst]
  · rw [digestG_fst, digestG_fst]

/-- C8: for every input byte sequence the digest printed by `printHash` is
`Hash[N]`: exactly 8 unsigned 32-bit words, rendered as exactly 64 hex
characters. -/
theorem digest_output_size (msg : List Nat) :
    (digest msg).length = 8 ∧ (∀ w ∈ digest msg, w < 2 ^ 32) ∧
    (printHashChars (getHash (parsingMessage (paddingMessage msg)))
      (parsingMessage (paddingMessage msg)).length).length = 64 ∧
    ∀ c ∈ printHashChars (getHash (parsingMessage (paddingMessage msg)))
      (parsingMessage (paddingMessage msg)).length, c ∈ hexCharset := by
  obtain ⟨s, b, hsb⟩ := digest_shape msg
  have hlen8 : (digest msg).length = 8 := by rw [hsb]; rfl
  have hmemlt : ∀ w ∈ digest msg, w < 2 ^ 32 := by rw [hsb]; exact compress_mem_lt s b
  have hHN : (getHash (parsingMessage (paddingMessage msg))).getD
      (parsingMessage (paddingMessage msg)).length [] = digest msg := rfl
  have hw : ∀ i, (digest msg).getD i 0 < 2 ^ 32 := by
    intro i
    by_cases hi : i < (digest msg).length
    · rw [List.getD_eq_getElem _ _ hi]
      exact hmemlt _ (List.getElem_mem hi)
    · rw [List.getD_eq_default _ _ (by omega)]
      norm_num
  refine ⟨hlen8, hmemlt, ?_, ?_⟩
  · unfold printHashChars
    rw [hHN]
    have hmap : (List.range 8).map (fun i => setwFill8 ((digest msg).getD i 0)) =
        [setwFill8 ((digest msg).getD 0 0), setwFill8 ((digest msg).getD 1 0),
         setwFill8 ((digest msg).getD 2 0), setwFill8 ((digest msg).getD 3 0),
         setwFill8 ((digest msg).getD 4 0), setwFill8 ((digest msg).getD 5 0),
         setwFill8 ((digest msg).getD 6 0), setwFill8 ((digest msg).getD 7 0)] := rfl
    rw [hmap]
    simp only [List.flatten_cons, List.flatten_nil, List.length_append, List.length_nil]
    rw [setwFill8_length _ (hw 0), setwFill8_length _ (hw 1), setwFill8_length _ (hw 2),
        setwFill8_length _ (hw 3), setwFill8_length _ (hw 4), setwFill8_length _ (hw 5),
        setwFill8_length _ (hw 6), setwFill8_length _ (hw 7)]
  · intro c hc
    unfold printHashChars at hc
    rw [hHN, List.mem_flatten] at hc
    obtain ⟨l, hl, hcl⟩ := hc
    simp only [List.mem_map] at hl
    obtain ⟨i, _, rfl⟩ := hl
    exact setwFill8_subset _ c hcl

set_option maxRecDepth 8000 in
/-- C8 witness: the word-bound clause of the theorem at the empty message and
the first digest word. -/
theorem digest_output_size_witness : 0xe3b0c442 < 2 ^ 32 :=
  (digest_output_size []).2.1 0xe3b0c442 (by decide)

/-- C9: in every execution ROTR is applied only through the four sigma
functions, hence only with rotation amounts in rotAmounts; each such amount n
is strictly between 0 and 32, so both shift amounts n and 32 - n lie in
0..31, and for every 32-bit word ROTR(n, x) is the n-bit circular right
rotation of x. -/
theorem ROTR_usage_safe :
    (∀ x, capitalSigma_0 x = ROTR 2 x ^^^ ROTR 13 x ^^^ ROTR 22 x) ∧
    (∀ x, capitalSigma_1 x = ROTR 6 x ^^^ ROTR 11 x ^^^ ROTR 25 x) ∧
    (∀ x, lowercaseSigma0 x = ROTR 7 x ^^^ ROTR 18 x ^^^ SHR 3 x) ∧
    (∀ x, lowercaseSigma1 x = ROTR 17 x ^^^ ROTR 19 x ^^^ SHR 10 x) ∧
    (∀ n ∈ rotAmounts, 0 < n ∧ n < 32 ∧ n ≤ 31 ∧ 32 - n ≤ 31) ∧
    (∀ n ∈ rotAmounts, ∀ x, x < 2 ^ 32 → ROTR n x = rotRight32 n x) := by
  refine ⟨fun x => rfl, fun x => rfl, fun x => rfl, fun x => rfl, by decide, ?_⟩
  intro n hn x hx
  have hrange : 0 < n ∧ n < 32 := by
    fin_cases hn <;> exact ⟨by norm_num, by norm_num⟩
  exact ROTR_eq_rotRight32 n x hrange.1 hrange.2 hx

/-- C9 witness: the rotation clause of the theorem at n = 2, x = 5. -/
theorem ROTR_usage_safe_witness : ROTR 2 5 = rotRight32 2 5 :=
  ROTR_usage_safe.2.2.2.2.2 2 (by decide) 5 (by norm_num)

/-- C10: for every bit-length L the search loop of `getPadding` terminates
within its 512-step budget on the least k with (L + 1 + k) mod 512 = 448 (so
k < 512); and for byte-aligned L the result satisfies k >= 7 and
k = 7 mod 8, so k - 7 is non-negative and divisible by 8 exactly. -/
theorem getPadding_terminates_least (L : Nat) :
    ((L + 1 + getPadding L) % 512 = 448 ∧ getPadding L < 512 ∧
      ∀ i, (L + 1 + i) % 512 = 448 → getPadding L ≤ i) ∧
    (L % 8 = 0 →
      7 ≤ getPadding L ∧ getPadding L % 8 = 7 ∧
      7 + 8 * ((getPadding L - 7) / 8) = getPadding L) := by
  have h := getPadding_eq L
  refine ⟨⟨by omega, by omega, fun i hi => by omega⟩, fun h8 => ⟨by omega, by omega, by omega⟩⟩

/-- C10 witness: the byte-aligned clause of the theorem at L = 0. -/
theorem getPadding_terminates_least_witness : 7 ≤ getPadding 0 :=
  ((getPadding_terminates_least 0).2 rfl).1

end Sha256
